import Mathlib

/-!
Verification of the team-invitation pipeline (`api4/team_local.go`), the
team-member graph resolver (`api4/resolver_team_member.go`) and the
preview-post constructor (`model` package) of this repository, as a shallow
embedding in Lean.  Go strings are modelled as `List Char`; Go pointers as
`Option`; the external collaborators (email validator, mail dispatch, stores)
as explicit parameters; the unicode helpers by their ASCII/Latin-1 fragment,
which is the fragment exercised by every comparison the code performs.
-/

namespace Mattermost

/-- Go strings, modelled as lists of characters. -/
abbrev Str := List Char

/-- Coercion from Lean string literals, for concrete test inputs. -/
def str (s : String) : Str := s.data

/-- Model of `unicode.IsSpace` on the characters that can occur here
(ASCII whitespace plus the two Latin-1 space characters). -/
def goIsSpace (c : Char) : Bool :=
  c = ' ' || c = '\t' || c = '\n' || c = Char.ofNat 11 || c = Char.ofNat 12 ||
  c = '\r' || c = Char.ofNat 0x85 || c = Char.ofNat 0xA0

/-- Model of the per-character action of `strings.ToLower` (ASCII fragment). -/
def goToLower (c : Char) : Char :=
  if 65 ≤ c.toNat ∧ c.toNat ≤ 90 then Char.ofNat (c.toNat + 32) else c

/-- `strings.ToLower` over a whole string. -/
def lowerStr (s : Str) : Str := s.map goToLower

/-- Model of `strings.Replace(s, old, new, -1)` for one-character patterns. -/
def replaceChar (old new : Char) (s : Str) : Str :=
  s.map fun c => if c = old then new else c

/-- Splitting into maximal runs of characters not satisfying `p`, dropping
empty runs: the behaviour of `strings.Fields` with separator predicate `p`. -/
def fieldsBy (p : Char → Bool) : Str → List Str
  | [] => []
  | c :: cs =>
    if p c then fieldsBy p cs
    else
      match cs with
      | [] => [[c]]
      | d :: _ =>
        if p d then [c] :: fieldsBy p cs
        else (fieldsBy p cs).modifyHead (fun t => c :: t)

/-- Model of `strings.TrimSpace`. -/
def trimSpace (s : Str) : Str :=
  ((s.dropWhile goIsSpace).reverse.dropWhile goIsSpace).reverse

/-- Model of `strings.Join(elems, sep)`. -/
def joinSep (sep : Str) : List Str → Str
  | [] => []
  | [x] => x
  | x :: rest => x ++ sep ++ joinSep sep rest

/-- `normalizeDomains` from `api4/team_local.go`:
`strings.Fields(strings.TrimSpace(strings.ToLower(strings.Replace(strings.Replace(domains, "@", " ", -1), ",", " ", -1))))`. -/
def normalizeDomains (domains : Str) : List Str :=
  fieldsBy goIsSpace
    (trimSpace (lowerStr (replaceChar ',' ' ' (replaceChar '@' ' ' domains))))

/-- `isEmailAddressAllowed` from `api4/team_local.go`: every restriction whose
normalization is non-empty must match the email via some `"@"+domain` suffix. -/
def isEmailAddressAllowed (email : Str) (allowedDomains : List Str) : Bool :=
  allowedDomains.all fun restriction =>
    let domains := normalizeDomains restriction
    if domains.length ≤ 0 then true
    else domains.any fun d => List.isSuffixOf ('@' :: d) email

/-! Data model for the `localInviteUsersToTeam` handler. -/

/-- A `model.AppError` as built by the handler: error id, the `Address` or
`Addresses` parameter when one is supplied, and the HTTP status code. -/
structure AppError where
  id : String
  paramKey : Option String
  paramVal : Option Str
  statusCode : Nat
deriving DecidableEq

/-- The `model.Team` fields read by the handler. -/
structure Team where
  id : Str
  allowedDomains : Str
deriving DecidableEq

/-- Result of `c.App.Srv().Store.Team().Get`: found, `store.ErrNotFound`,
or any other store error. -/
inductive TeamStoreResult where
  | found (t : Team)
  | notFound
  | otherError
deriving DecidableEq

/-- Outcome of a `SendInviteEmails` call: success, or one of the three error
classes distinguished by the handler (`email.NoRateLimiterError`,
`email.SetupRateLimiterError`, anything else). -/
inductive DispatchOutcome where
  | ok
  | noRateLimiterError
  | setupRateLimiterError
  | otherError
deriving DecidableEq

/-- `model.EmailInviteWithError`: an address plus its optional per-address error. -/
structure EmailInviteWithError where
  email : Str
  error : Option AppError
deriving DecidableEq

/-- What the handler writes back: an error (`c.Err`), an invalid-parameter
rejection (`c.SetInvalidParam`), `ReturnStatusOK`, or the marshalled
per-address outcome list of graceful mode. -/
inductive InviteResponse where
  | appError (e : AppError)
  | invalidParam (param : String)
  | okStatus
  | okGraceful (invites : List EmailInviteWithError)
deriving DecidableEq

/-- Observable effects of one handler run: the response, the argument lists of
the `SendInviteEmails` calls that were made, whether the audit record was
created (`MakeAuditRecord` reached) and whether it was marked successful. -/
structure HandlerOutput where
  response : InviteResponse
  dispatchCalls : List (List Str)
  auditRecordMade : Bool
  auditSuccess : Bool
deriving DecidableEq

/-- Error for disabled email invitations (HTTP `StatusNotImplemented`). -/
def disabledError : AppError :=
  ⟨"api.team.invite_members.disabled.app_error", none, none, 501⟩

/-- Whole-batch error for an address failing format validation
(`Address` parameter, HTTP `StatusBadRequest`). -/
def invalidFormatError (address : Str) : AppError :=
  ⟨"api.team.invite_members.invalid_email.app_error", some "Address", some address, 400⟩

/-- Team-not-found error (HTTP `StatusNotFound`). -/
def teamNotFoundError : AppError :=
  ⟨"app.team.get.find.app_error", none, none, 404⟩

/-- Other team-store error (HTTP `StatusInternalServerError`). -/
def teamFindingError : AppError :=
  ⟨"app.team.get.finding.app_error", none, none, 500⟩

/-- Per-address domain-restriction error of graceful mode
(`Addresses` parameter, HTTP `StatusBadRequest`). -/
def perAddressDomainError (address : Str) : AppError :=
  ⟨"api.team.invite_members.invalid_email.app_error", some "Addresses", some address, 400⟩

/-- Aggregate domain-restriction error of strict mode, carrying the
`", "`-joined rejected addresses (HTTP `StatusBadRequest`). -/
def strictDomainError (joined : Str) : AppError :=
  ⟨"api.team.invite_members.invalid_email.app_error", some "Addresses", some joined, 400⟩

/-- Error produced when `SendInviteEmails` fails, by failure kind; `none` for
a successful dispatch.  The status codes are `http.StatusInternalServerError`
(500) for the two rate-limiter configuration failures and
`http.StatusRequestEntityTooLarge` (413) for the default case. -/
def dispatchFailureError : DispatchOutcome → Option AppError
  | .ok => none
  | .noRateLimiterError => some ⟨"app.email.no_rate_limiter.app_error", none, none, 500⟩
  | .setupRateLimiterError => some ⟨"app.email.setup_rate_limiter.app_error", none, none, 500⟩
  | .otherError => some ⟨"app.email.rate_limit_exceeded.app_error", none, none, 413⟩

/-- The in-place lowercasing-and-validation loop over the email list:
returns the first lowercased address failing `model.IsValidEmail` (as
`Except.error`), or the fully lowercased list.  `validEmail` stands for
`model.IsValidEmail`, an external collaborator of this excerpt. -/
def validateEmails (validEmail : Str → Bool) : List Str → Except Str (List Str)
  | [] => .ok []
  | e :: rest =>
    let le := lowerStr e
    if validEmail le then (validateEmails validEmail rest).map (le :: ·)
    else .error le

/-- `localInviteUsersToTeam` from `api4/team_local.go`, after `RequireTeamId`.
External collaborators appear as parameters: `validEmail` models
`model.IsValidEmail`, `teamResult` the team-store lookup, `dispatch` the
outcome `SendInviteEmails` would return on a given address list, and
`graceful` whether the `graceful` query parameter is non-empty. -/
def localInviteUsersToTeam (validEmail : Str → Bool)
    (enableEmailInvitations : Bool) (restrictCreationToDomains : Str)
    (teamResult : TeamStoreResult) (dispatch : List Str → DispatchOutcome)
    (graceful : Bool) (emailList : List Str) : HandlerOutput :=
  if !enableEmailInvitations then
    ⟨.appError disabledError, [], false, false⟩
  else if emailList.length = 0 then
    ⟨.invalidParam "user_email", [], false, false⟩
  else
    match validateEmails validEmail emailList with
    | .error bad => ⟨.appError (invalidFormatError bad), [], false, false⟩
    | .ok lowered =>
      match teamResult with
      | .notFound => ⟨.appError teamNotFoundError, [], true, false⟩
      | .otherError => ⟨.appError teamFindingError, [], true, false⟩
      | .found team =>
        let allowedDomains := [team.allowedDomains, restrictCreationToDomains]
        if graceful then
          let invitesWithErrors := lowered.map fun e =>
            if isEmailAddressAllowed e allowedDomains then
              EmailInviteWithError.mk e none
            else
              EmailInviteWithError.mk e (some (perAddressDomainError e))
          let goodEmails := lowered.filter fun e => isEmailAddressAllowed e allowedDomains
          if goodEmails.length > 0 then
            match dispatchFailureError (dispatch goodEmails) with
            | some err => ⟨.appError err, [goodEmails], true, false⟩
            | none => ⟨.okGraceful invitesWithErrors, [goodEmails], true, true⟩
          else
            ⟨.okGraceful invitesWithErrors, [], true, true⟩
        else
          let invalidEmailList := lowered.filter fun e => !isEmailAddressAllowed e allowedDomains
          if invalidEmailList.length > 0 then
            ⟨.appError (strictDomainError (joinSep (str ", ") invalidEmailList)), [], true, false⟩
          else
            match dispatchFailureError (dispatch lowered) with
            | some err => ⟨.appError err, [lowered], true, false⟩
            | none => ⟨.okStatus, [lowered], true, true⟩

/-! Data model for the `SidebarCategories` resolver
(`api4/resolver_team_member.go`). -/

/-- The fields of `model.SidebarCategoryWithChannels` the resolver touches:
its id, plus a payload standing for the remaining fields so that distinct
categories with distinct content stay distinguishable. -/
structure SidebarCategoryWithChannels where
  id : Str
  displayName : Str
deriving DecidableEq

/-- `model.OrderedSidebarCategories`: the category list returned by the store
(a list of non-nil pointers) together with the canonical order of ids. -/
structure SidebarCategorySet where
  categories : List SidebarCategoryWithChannels
  order : List Str
deriving DecidableEq

/-- Errors a resolver method can return: a `getCtx` failure, the permission
error set by `c.SetPermissionError`, or an `AppError` propagated from
`GetSidebarCategories`. -/
inductive ResolverError where
  | ctxError
  | permissionDenied
  | appError (e : AppError)
deriving DecidableEq

/-- Insertion into a Go map modelled as an association list: assigning to an
existing key overwrites its value, otherwise the binding is added. -/
def goMapInsert (m : List (Str × SidebarCategoryWithChannels)) (k : Str)
    (v : SidebarCategoryWithChannels) : List (Str × SidebarCategoryWithChannels) :=
  if m.any fun p => p.1 = k then
    m.map fun p => if p.1 = k then (k, v) else p
  else
    m ++ [(k, v)]

/-- Lookup in the modelled Go map; `none` models the nil pointer a Go map of
pointers yields for a missing key. -/
def goMapLookup (m : List (Str × SidebarCategoryWithChannels)) (k : Str) :
    Option SidebarCategoryWithChannels :=
  (m.find? fun p => p.1 = k).map Prod.snd

/-- The `orderMap` built by the resolver from the store's category list. -/
def buildOrderMap (categories : List SidebarCategoryWithChannels) :
    List (Str × SidebarCategoryWithChannels) :=
  categories.foldl (fun m category => goMapInsert m category.id category) []

/-- `SidebarCategories` from `api4/resolver_team_member.go`.  `ctxOk` models
whether `getCtx` succeeds, `hasPermissionToUser` the
`SessionHasPermissionToUser` check, and `fetch` the result of
`GetSidebarCategories`.  Each output entry is the map lookup of the
corresponding order entry; `none` entries model nil pointers. -/
def sidebarCategories (ctxOk : Bool) (hasPermissionToUser : Bool)
    (fetch : Except AppError SidebarCategorySet) :
    Except ResolverError (List (Option SidebarCategoryWithChannels)) :=
  if !ctxOk then .error .ctxError
  else if !hasPermissionToUser then .error .permissionDenied
  else
    match fetch with
    | .error e => .error (.appError e)
    | .ok categories =>
      let orderMap := buildOrderMap categories.categories
      .ok (categories.order.map fun categoryId => goMapLookup orderMap categoryId)

/-! Data model for `NewPreviewPost` (`model` package). -/

/-- The `model.Post` fields `NewPreviewPost` reads. -/
structure Post where
  id : Str
deriving DecidableEq

/-- The `model.Channel` fields `NewPreviewPost` reads. -/
structure Channel where
  displayName : Str
  type : Str
deriving DecidableEq

/-- `model.PreviewPost`. -/
structure PreviewPost where
  postID : Str
  post : Post
  channelDisplayName : Str
  channelType : Str
deriving DecidableEq

/-- `NewPreviewPost`, with Go pointers as `Option`.  The outer `Option` is
the behaviour of the call: `none` models a nil-pointer-dereference panic,
`some r` a normal return of the (possibly nil) pointer `r`.  The source
checks `post == nil` but dereferences `channel` unconditionally. -/
def NewPreviewPost (post : Option Post) (channel : Option Channel) :
    Option (Option PreviewPost) :=
  match post with
  | none => some none
  | some p =>
    match channel with
    | none => none
    | some ch => some (some ⟨p.id, p, ch.displayName, ch.type⟩)

/-- Whether a response carries the per-address outcome list of graceful mode. -/
def InviteResponse.hasOutcomeList : InviteResponse → Bool
  | .okGraceful _ => true
  | _ => false

/-! Separator-variant machinery for the normalization invariant (C4). -/

/-- Characters acting as separators in a restriction rule: whitespace,
comma, and the optional at-sign. -/
def isSepChar (c : Char) : Bool := goIsSpace c || c = ',' || c = '@'

/-- The combined action on one character of the two `strings.Replace` calls
in `normalizeDomains` (at-sign first, then comma, both to a space). -/
def collapseSep (c : Char) : Char :=
  if c = '@' then ' ' else if c = ',' then ' ' else c

/-- A bare lowercase domain token: non-empty, free of separator characters
and fixed by lowercasing. -/
def isBareLowerDomain (d : Str) : Bool :=
  !d.isEmpty && d.all fun c => !isSepChar c && (goToLower c = c)

/-- A (possibly empty) run of separator characters. -/
def isSepRun (s : Str) : Bool := s.all isSepChar

/-- A rule string assembled from a leading separator run and a sequence of
(domain, following separator run) pairs. -/
def variantStr (lead : Str) (ps : List (Str × Str)) : Str :=
  lead ++ (ps.map fun q => q.1 ++ q.2).flatten

/-- The separator predicate induced on the original rule string by the
replace-then-lowercase preprocessing of `normalizeDomains`. -/
def normSep (c : Char) : Bool := goIsSpace (goToLower (collapseSep c))

/-- Every separator run standing between two domains is non-empty (the run
after the last domain may be empty). -/
def innerSepsNonempty : List (Str × Str) → Bool
  | [] => true
  | [_] => true
  | q :: r :: rest => !q.2.isEmpty && innerSepsNonempty (r :: rest)

/-- Shape check for a separator variant: the leading and per-domain separator
runs contain only separator characters, the domains are bare lowercase
tokens, and every inner separator run is non-empty. -/
def variantShapeOK (lead : Str) (ps : List (Str × Str)) : Bool :=
  isSepRun lead && (ps.all fun q => isBareLowerDomain q.1 && isSepRun q.2) &&
    innerSepsNonempty ps

/-- The canonical space-separated form of a list of domain tokens. -/
def canonicalForm : List Str → Str
  | [] => []
  | [d] => d
  | d :: d2 :: rest => d ++ ' ' :: canonicalForm (d2 :: rest)

/-! Helper lemmas about the validation loop. -/

/-- If every lowercased address passes validation, the loop lowercases the
whole list. -/
theorem validateEmails_ok_of_all_valid (validEmail : Str → Bool) (l : List Str)
    (h : ∀ e ∈ l, validEmail (lowerStr e) = true) :
    validateEmails validEmail l = .ok (l.map lowerStr) := by
  induction l with
  | nil => rfl
  | cons e rest ih =>
    have he : validEmail (lowerStr e) = true := h e (by simp)
    simp [validateEmails, he, ih fun x hx => h x (by simp [hx]), Except.map]

/-- Mapping over a fallible result neither introduces nor masks errors. -/
theorem except_map_eq_error {ε α β : Type} (x : Except ε α) (f : α → β) (e : ε) :
    x.map f = .error e ↔ x = .error e := by
  cases x <;> simp [Except.map]

/-- The validation loop fails with `bad` exactly when `bad` is the first
lowercased address failing validation. -/
theorem validateEmails_error_iff (validEmail : Str → Bool) (l : List Str) (bad : Str) :
    validateEmails validEmail l = .error bad ↔
      (l.map lowerStr).find? (fun le => !validEmail le) = some bad := by
  induction l with
  | nil => simp [validateEmails]
  | cons e rest ih =>
    by_cases he : validEmail (lowerStr e) = true
    · simp [validateEmails, he, except_map_eq_error, List.find?, ih]
    · simp only [Bool.not_eq_true] at he
      simp [validateEmails, he, List.find?, eq_comm]

/-- A successful validation result is the lowercased input list. -/
theorem validateEmails_ok_elim (validEmail : Str → Bool) (l lowered : List Str)
    (h : validateEmails validEmail l = .ok lowered) : lowered = l.map lowerStr := by
  induction l generalizing lowered with
  | nil => simpa [validateEmails] using h.symm
  | cons e rest ih =>
    by_cases he : validEmail (lowerStr e) = true
    · cases hrest : validateEmails validEmail rest with
      | ok lr =>
        simp [validateEmails, he, hrest, Except.map] at h
        simp [← h, ih lr hrest]
      | error b => simp [validateEmails, he, hrest, Except.map] at h
    · simp only [Bool.not_eq_true] at he
      simp [validateEmails, he] at h

/-! Claim theorems. -/

/-- C8: when invitations are enabled and the address list is non-empty but
contains an address whose lowercased form fails email-format validation, the
whole batch fails with an `InvalidEmailFormat` error identifying the first
offending lowercased address, in both strict and graceful mode alike, with no
dispatch call and no audit record, independently of the team lookup. -/
theorem claim8_invalid_format_aborts_batch (validEmail : Str → Bool)
    (restrict : Str) (teamResult : TeamStoreResult)
    (dispatch : List Str → DispatchOutcome) (graceful : Bool)
    (emailList : List Str) (bad : Str)
    (hne : emailList ≠ [])
    (hbad : validateEmails validEmail emailList = .error bad) :
    localInviteUsersToTeam validEmail true restrict teamResult dispatch graceful emailList =
      ⟨.appError (invalidFormatError bad), [], false, false⟩ ∧
    (emailList.map lowerStr).find? (fun le => !validEmail le) = some bad := by
  refine ⟨?_, (validateEmails_error_iff _ _ _).mp hbad⟩
  unfold localInviteUsersToTeam
  simp [hbad, List.length_eq_zero, hne]

/-- Witness for C8 on the batch `["u@ok.com", "BROKEN"]` with a validator
rejecting `"broken"`: the run aborts with the format error naming the
lowercased second address, no dispatch and no audit record. -/
theorem claim8_invalid_format_aborts_batch_witness :
    ([str "u@ok.com", str "BROKEN"] ≠ ([] : List Str)) ∧
    (validateEmails (fun e => e ≠ str "broken") [str "u@ok.com", str "BROKEN"] =
      .error (str "broken")) ∧
    (localInviteUsersToTeam (fun e => e ≠ str "broken") true (str "") .notFound
        (fun _ => .ok) false [str "u@ok.com", str "BROKEN"] =
      ⟨.appError (invalidFormatError (str "broken")), [], false, false⟩ ∧
     ([str "u@ok.com", str "BROKEN"].map lowerStr).find?
        (fun le => !(fun e => e ≠ str "broken") le) = some (str "broken")) :=
  ⟨by decide, by rfl,
    claim8_invalid_format_aborts_batch (fun e => e ≠ str "broken") (str "") .notFound
      (fun _ => .ok) false [str "u@ok.com", str "BROKEN"] (str "broken")
      (by decide) (by rfl)⟩

/-- C2: in strict mode on a non-empty format-valid list, if some address fails
the domain check the batch fails with the aggregate error joining all rejected
addresses with `", "` and no dispatch call is made; if none fails, the full
lowercased address list is dispatched. -/
theorem claim2_strict_mode (validEmail : Str → Bool) (restrict : Str) (team : Team)
    (dispatch : List Str → DispatchOutcome) (emailList : List Str)
    (hne : emailList ≠ [])
    (hvalid : validateEmails validEmail emailList = .ok (emailList.map lowerStr)) :
    ((emailList.map lowerStr).filter
        (fun e => !isEmailAddressAllowed e [team.allowedDomains, restrict]) ≠ [] →
      localInviteUsersToTeam validEmail true restrict (.found team) dispatch false emailList =
        ⟨.appError (strictDomainError (joinSep (str ", ")
            ((emailList.map lowerStr).filter
              (fun e => !isEmailAddressAllowed e [team.allowedDomains, restrict])))),
          [], true, false⟩) ∧
    ((emailList.map lowerStr).filter
        (fun e => !isEmailAddressAllowed e [team.allowedDomains, restrict]) = [] →
      (localInviteUsersToTeam validEmail true restrict (.found team) dispatch
          false emailList).dispatchCalls = [emailList.map lowerStr]) := by
  constructor
  · intro hrej
    have hpos : 0 < ((emailList.map lowerStr).filter
        (fun e => !isEmailAddressAllowed e [team.allowedDomains, restrict])).length :=
      List.length_pos.mpr hrej
    unfold localInviteUsersToTeam
    simp [List.length_eq_zero, hne, hvalid, hpos]
  · intro hrej
    unfold localInviteUsersToTeam
    simp only [Bool.not_true, Bool.false_eq_true, if_false, List.length_eq_zero, hne,
      if_true, hvalid]
    cases h : dispatchFailureError (dispatch (emailList.map lowerStr)) <;>
      simp [hrej, h]

/-- Witness for C2 at a batch whose second address violates the restriction:
the aggregate error lists it and no dispatch happens; and at an all-passing
batch the full list is dispatched. -/
theorem claim2_strict_mode_witness :
    ([str "u@a.com", str "v@b.com"] ≠ ([] : List Str)) ∧
    (validateEmails (fun _ => true) [str "u@a.com", str "v@b.com"] =
      .ok ([str "u@a.com", str "v@b.com"].map lowerStr)) ∧
    (([str "u@a.com", str "v@b.com"].map lowerStr).filter
        (fun e => !isEmailAddressAllowed e [str "a.com", str ""]) ≠ [] →
      localInviteUsersToTeam (fun _ => true) true (str "") (.found ⟨str "t", str "a.com"⟩)
          (fun _ => .ok) false [str "u@a.com", str "v@b.com"] =
        ⟨.appError (strictDomainError (joinSep (str ", ")
            (([str "u@a.com", str "v@b.com"].map lowerStr).filter
              (fun e => !isEmailAddressAllowed e [str "a.com", str ""])))),
          [], true, false⟩) ∧
    (([str "u@a.com", str "v@b.com"].map lowerStr).filter
        (fun e => !isEmailAddressAllowed e [str "a.com", str ""]) = [] →
      (localInviteUsersToTeam (fun _ => true) true (str "") (.found ⟨str "t", str "a.com"⟩)
          (fun _ => .ok) false [str "u@a.com", str "v@b.com"]).dispatchCalls =
        [[str "u@a.com", str "v@b.com"].map lowerStr]) :=
  ⟨by decide, by rfl,
    claim2_strict_mode (fun _ => true) (str "") ⟨str "t", str "a.com"⟩
      (fun _ => .ok) [str "u@a.com", str "v@b.com"] (by decide) (by rfl)⟩

/-- C5 counterexample: when dispatch fails because no rate limiter is
configured, the outward error carries HTTP status 500
(`StatusInternalServerError`), not the 503 of a `ServiceUnavailable`-class
error the claim asserts. -/
theorem claim5_counterexample :
    (localInviteUsersToTeam (fun _ => true) true (str "") (.found ⟨str "t", str ""⟩)
        (fun _ => .noRateLimiterError) false [str "u@a.com"]) =
      ⟨.appError ⟨"app.email.no_rate_limiter.app_error", none, none, 500⟩,
       [[str "u@a.com"]], true, false⟩ ∧
    (500 : Nat) ≠ 503 := by
  decide

/-- C5 (amended): whenever dispatch is attempted in either mode and the
collaborator fails with the no-rate-limiter error, the batch fails with the
`app.email.no_rate_limiter.app_error` error of HTTP status 500
(`InternalFailure` class). -/
theorem claim5_amended_noRateLimiter_aborts (validEmail : Str → Bool) (enable : Bool)
    (restrict : Str) (teamResult : TeamStoreResult)
    (dispatch : List Str → DispatchOutcome) (graceful : Bool) (emailList : List Str)
    (hdisp : dispatch = fun _ => .noRateLimiterError)
    (hatt : (localInviteUsersToTeam validEmail enable restrict teamResult dispatch
        graceful emailList).dispatchCalls ≠ []) :
    (localInviteUsersToTeam validEmail enable restrict teamResult dispatch
        graceful emailList).response =
      .appError ⟨"app.email.no_rate_limiter.app_error", none, none, 500⟩ := by
  subst hdisp
  unfold localInviteUsersToTeam at hatt ⊢
  by_cases he : enable = true
  · by_cases hlen : emailList.length = 0
    · simp [he, hlen] at hatt
    · cases hv : validateEmails validEmail emailList with
      | error bad => simp [he, hlen, hv] at hatt
      | ok lowered =>
        cases teamResult with
        | notFound => simp [he, hlen, hv] at hatt
        | otherError => simp [he, hlen, hv] at hatt
        | found team =>
          by_cases hg : graceful = true
          · by_cases hpos : 0 < (lowered.filter fun e =>
                isEmailAddressAllowed e [team.allowedDomains, restrict]).length
            · simp [he, hlen, hv, hg, hpos, dispatchFailureError]
            · simp [he, hlen, hv, hg, hpos] at hatt
          · by_cases hinv : 0 < (lowered.filter fun e =>
                !isEmailAddressAllowed e [team.allowedDomains, restrict]).length
            · simp [he, hlen, hv, hg, hinv] at hatt
            · simp [he, hlen, hv, hg, hinv, dispatchFailureError]
  · simp [he] at hatt

/-- Witness for C5 (amended): a strict-mode run where dispatch is attempted
and fails with the no-rate-limiter error. -/
theorem claim5_amended_noRateLimiter_aborts_witness :
    ((fun _ : List Str => DispatchOutcome.noRateLimiterError) =
      fun _ => DispatchOutcome.noRateLimiterError) ∧
    ((localInviteUsersToTeam (fun _ => true) true (str "") (.found ⟨str "t", str ""⟩)
        (fun _ => .noRateLimiterError) false [str "u@a.com"]).dispatchCalls ≠ []) ∧
    ((localInviteUsersToTeam (fun _ => true) true (str "") (.found ⟨str "t", str ""⟩)
        (fun _ => .noRateLimiterError) false [str "u@a.com"]).response =
      .appError ⟨"app.email.no_rate_limiter.app_error", none, none, 500⟩) :=
  ⟨rfl, by decide,
    claim5_amended_noRateLimiter_aborts (fun _ => true) true (str "")
      (.found ⟨str "t", str ""⟩) (fun _ => .noRateLimiterError) false
      [str "u@a.com"] rfl (by decide)⟩

/-- C6: in graceful mode, when at least one address passes the domain check
and the dispatch call fails (any failure kind), the whole batch response is
the dispatch-derived error and the per-address outcome list is not returned. -/
theorem claim6_graceful_dispatch_failure (validEmail : Str → Bool) (restrict : Str)
    (team : Team) (dispatch : List Str → DispatchOutcome) (emailList : List Str)
    (err : AppError)
    (hne : emailList ≠ [])
    (hvalid : validateEmails validEmail emailList = .ok (emailList.map lowerStr))
    (hgood : (emailList.map lowerStr).filter
        (fun e => isEmailAddressAllowed e [team.allowedDomains, restrict]) ≠ [])
    (hfail : dispatchFailureError (dispatch ((emailList.map lowerStr).filter
        (fun e => isEmailAddressAllowed e [team.allowedDomains, restrict]))) = some err) :
    localInviteUsersToTeam validEmail true restrict (.found team) dispatch true emailList =
      ⟨.appError err,
        [(emailList.map lowerStr).filter
          (fun e => isEmailAddressAllowed e [team.allowedDomains, restrict])],
        true, false⟩ ∧
    (InviteResponse.appError err).hasOutcomeList = false := by
  have hpos : 0 < ((emailList.map lowerStr).filter
      (fun e => isEmailAddressAllowed e [team.allowedDomains, restrict])).length :=
    List.length_pos.mpr hgood
  constructor
  · unfold localInviteUsersToTeam
    simp [List.length_eq_zero, hne, hvalid, hpos, hfail]
  · rfl

/-- Witness for C6: one passing address, dispatch throttled. -/
theorem claim6_graceful_dispatch_failure_witness :
    ([str "u@a.com"] ≠ ([] : List Str)) ∧
    (validateEmails (fun _ => true) [str "u@a.com"] = .ok ([str "u@a.com"].map lowerStr)) ∧
    (([str "u@a.com"].map lowerStr).filter
        (fun e => isEmailAddressAllowed e [str "", str ""]) ≠ []) ∧
    (dispatchFailureError ((fun _ : List Str => DispatchOutcome.otherError)
        (([str "u@a.com"].map lowerStr).filter
          (fun e => isEmailAddressAllowed e [str "", str ""]))) =
      some ⟨"app.email.rate_limit_exceeded.app_error", none, none, 413⟩) ∧
    (localInviteUsersToTeam (fun _ => true) true (str "") (.found ⟨str "t", str ""⟩)
        (fun _ => .otherError) true [str "u@a.com"] =
      ⟨.appError ⟨"app.email.rate_limit_exceeded.app_error", none, none, 413⟩,
        [([str "u@a.com"].map lowerStr).filter
          (fun e => isEmailAddressAllowed e [str "", str ""])],
        true, false⟩ ∧
      (InviteResponse.appError
        ⟨"app.email.rate_limit_exceeded.app_error", none, none, 413⟩).hasOutcomeList = false) :=
  ⟨by decide, by rfl, by decide, by rfl,
    claim6_graceful_dispatch_failure (fun _ => true) (str "") ⟨str "t", str ""⟩
      (fun _ => .otherError) [str "u@a.com"]
      ⟨"app.email.rate_limit_exceeded.app_error", none, none, 413⟩
      (by decide) (by rfl) (by decide) (by rfl)⟩

/-- C3: `isEmailAddressAllowed` accepts exactly when every rule with a
non-empty normalization has some suffix `"@"+d` matching the address (AND
across rules, OR within a rule); rules normalizing to the empty set are
skipped, so an all-empty rule sequence accepts every address. -/
theorem claim3_matcher_semantics (email : Str) (rules : List Str) :
    (isEmailAddressAllowed email rules = true ↔
      ∀ r ∈ rules, normalizeDomains r ≠ [] →
        ∃ d ∈ normalizeDomains r, List.isSuffixOf ('@' :: d) email = true) ∧
    ((∀ r ∈ rules, normalizeDomains r = []) →
      isEmailAddressAllowed email rules = true) := by
  have point : ∀ r : Str,
      ((if (normalizeDomains r).length ≤ 0 then true
        else (normalizeDomains r).any fun d => List.isSuffixOf ('@' :: d) email) = true ↔
       (normalizeDomains r ≠ [] →
        ∃ d ∈ normalizeDomains r, List.isSuffixOf ('@' :: d) email = true)) := by
    intro r
    by_cases hz : normalizeDomains r = []
    · simp [hz]
    · have hlen : ¬ (normalizeDomains r).length ≤ 0 := by
        simpa [Nat.le_zero, List.length_eq_zero] using hz
      simp [if_neg hlen, List.any_eq_true, hz]
  have main : isEmailAddressAllowed email rules = true ↔
      ∀ r ∈ rules, normalizeDomains r ≠ [] →
        ∃ d ∈ normalizeDomains r, List.isSuffixOf ('@' :: d) email = true := by
    unfold isEmailAddressAllowed
    rw [List.all_eq_true]
    exact forall₂_congr fun r _ => point r
  refine ⟨main, fun hall => main.mpr fun r hr => ?_⟩
  simp [hall r hr]

/-- Witness for C3: a rule list whose rules all normalize to the empty suffix
set accepts an arbitrary address. -/
theorem claim3_matcher_semantics_witness :
    isEmailAddressAllowed (str "u@x.com") [str "", str " ,@ "] = true :=
  (claim3_matcher_semantics (str "u@x.com") [str "", str " ,@ "]).2 (by decide)

/-! Helper lemmas for the sidebar-category resolver. -/

/-- Building the order map over categories with pairwise-distinct ids never
overwrites, so it is the id-keyed pairing of the category list. -/
theorem buildOrderMap_eq_pairs_aux (cats : List SidebarCategoryWithChannels)
    (m : List (Str × SidebarCategoryWithChannels))
    (hdisj : ∀ c ∈ cats, ∀ q ∈ m, q.1 ≠ c.id)
    (hnd : (cats.map fun c => c.id).Nodup) :
    cats.foldl (fun m category => goMapInsert m category.id category) m =
      m ++ cats.map fun c => (c.id, c) := by
  induction cats generalizing m with
  | nil => simp
  | cons c rest ih =>
    have hnotin : m.any (fun q => q.1 = c.id) = false := by
      rw [List.any_eq_false]
      intro q hq
      simpa using hdisj c (by simp) q hq
    have hnd' : (rest.map fun c => c.id).Nodup := by
      simpa using hnd.of_cons
    have hcid : c.id ∉ rest.map fun c => c.id := by
      simpa [List.nodup_cons] using hnd.not_mem
    have hdisj' : ∀ x ∈ rest, ∀ q ∈ m ++ [(c.id, c)], q.1 ≠ x.id := by
      intro x hx q hq
      rcases List.mem_append.mp hq with hq | hq
      · exact hdisj x (by simp [hx]) q hq
      · simp only [List.mem_singleton] at hq
        subst hq
        intro hcontra
        exact hcid (by simpa [← hcontra] using List.mem_map_of_mem (fun c => c.id) hx)
    have hins : goMapInsert m c.id c = m ++ [(c.id, c)] := by
      unfold goMapInsert
      simp [hnotin]
    rw [List.foldl_cons, hins, ih (m ++ [(c.id, c)]) hdisj' hnd']
    simp

/-- Under distinct ids, the order map is the pairing of the category list. -/
theorem buildOrderMap_eq_pairs (cats : List SidebarCategoryWithChannels)
    (hnd : (cats.map fun c => c.id).Nodup) :
    buildOrderMap cats = cats.map fun c => (c.id, c) := by
  simpa using buildOrderMap_eq_pairs_aux cats [] (by simp) hnd

/-- Looking up a key in the pairing map is `find?` on the category list. -/
theorem goMapLookup_pairs (cats : List SidebarCategoryWithChannels) (k : Str) :
    goMapLookup (cats.map fun c => (c.id, c)) k =
      cats.find? fun c => c.id = k := by
  induction cats with
  | nil => rfl
  | cons c rest ih =>
    unfold goMapLookup at ih ⊢
    rw [List.map_cons]
    by_cases hc : c.id = k
    · rw [List.find?_cons_of_pos _ (by simpa using hc),
        List.find?_cons_of_pos _ (by simpa using hc)]
      rfl
    · rw [List.find?_cons_of_neg _ (by simpa using hc),
        List.find?_cons_of_neg _ (by simpa using hc)]
      exact ih

/-- With pairwise-distinct ids, `find?` by id returns the unique member
carrying that id. -/
theorem find?_id_eq_of_mem (l : List SidebarCategoryWithChannels) (k : Str)
    (hnd : (l.map fun c => c.id).Nodup) (c : SidebarCategoryWithChannels)
    (hc : c ∈ l) (hk : c.id = k) :
    l.find? (fun x => x.id = k) = some c := by
  induction l with
  | nil => simp at hc
  | cons a rest ih =>
    by_cases ha : a.id = k
    · rw [List.find?_cons_of_pos _ (by simpa using ha)]
      rcases List.mem_cons.mp hc with rfl | hc'
      · rfl
      · have hmem : a.id ∈ rest.map fun c => c.id := by
          rw [ha, ← hk]
          exact List.mem_map_of_mem (fun c => c.id) hc'
        have hnot : a.id ∉ rest.map fun c => c.id := by
          have h := hnd
          simp only [List.map_cons, List.nodup_cons] at h
          exact h.1
        exact absurd hmem hnot
    · rw [List.find?_cons_of_neg _ (by simpa using ha)]
      rcases List.mem_cons.mp hc with rfl | hc'
      · exact absurd hk ha
      · exact ih (by simpa using hnd.of_cons) hc'

/-- `find?` by id is invariant under permutation of a duplicate-free
category list. -/
theorem find?_id_perm (cats cats' : List SidebarCategoryWithChannels) (k : Str)
    (hperm : cats'.Perm cats) (hnd : (cats.map fun c => c.id).Nodup) :
    cats'.find? (fun c => c.id = k) = cats.find? (fun c => c.id = k) := by
  have hnd' : (cats'.map fun c => c.id).Nodup :=
    ((hperm.map fun c => c.id).nodup_iff).mpr hnd
  cases hfind : cats.find? (fun c => c.id = k) with
  | some c =>
    have hck : c.id = k := by simpa using List.find?_some hfind
    have hmem : c ∈ cats' := hperm.mem_iff.mpr (List.mem_of_find?_eq_some hfind)
    exact find?_id_eq_of_mem cats' k hnd' c hmem hck
  | none =>
    rw [List.find?_eq_none] at hfind ⊢
    intro x hx
    exact hfind x (hperm.mem_iff.mp hx)

/-- C7: on a successful resolution with distinct category ids, the output
sequence is the order list mapped through lookup-by-id — its length is the
order list's length, position `i` holds the category whose id is the `i`-th
order entry, a missing id yields a `none` (nil) entry rather than an error or
a skip — and the result does not depend on the order in which the backing
store lists the categories. -/
theorem claim7_sidebarCategories_order (cs : SidebarCategorySet)
    (cats' : List SidebarCategoryWithChannels)
    (hnd : (cs.categories.map fun c => c.id).Nodup)
    (hperm : cats'.Perm cs.categories) :
    sidebarCategories true true (.ok cs) =
      .ok (cs.order.map fun cid => cs.categories.find? fun c => c.id = cid) ∧
    (cs.order.map fun cid => cs.categories.find? fun c => c.id = cid).length =
      cs.order.length ∧
    sidebarCategories true true (.ok ⟨cats', cs.order⟩) =
      sidebarCategories true true (.ok cs) := by
  have hlook : ∀ (l : List SidebarCategoryWithChannels),
      (l.map fun c => c.id).Nodup → ∀ k,
      goMapLookup (buildOrderMap l) k = l.find? fun c => c.id = k := by
    intro l hl k
    rw [buildOrderMap_eq_pairs l hl, goMapLookup_pairs]
  have h1 : sidebarCategories true true (.ok cs) =
      .ok (cs.order.map fun cid => cs.categories.find? fun c => c.id = cid) := by
    unfold sidebarCategories
    simp only [Bool.not_true, Bool.false_eq_true, if_false]
    congr 1
    exact List.map_congr_left fun cid _ => hlook cs.categories hnd cid
  have hnd' : (cats'.map fun c => c.id).Nodup :=
    ((hperm.map fun c => c.id).nodup_iff).mpr hnd
  refine ⟨h1, by simp, ?_⟩
  rw [h1]
  unfold sidebarCategories
  simp only [Bool.not_true, Bool.false_eq_true, if_false]
  congr 1
  refine List.map_congr_left fun cid _ => ?_
  rw [hlook cats' hnd' cid]
  exact find?_id_perm cs.categories cats' cid hperm hnd

/-- Witness for C7: two categories supplied in reverse order, an order list
referencing them plus a missing id; the resolution follows the order list and
inserts a `none` for the missing id, and is unchanged under the reversal. -/
theorem claim7_sidebarCategories_order_witness :
    ((([⟨str "c1", str "Channels"⟩, ⟨str "c2", str "Favorites"⟩] :
        List SidebarCategoryWithChannels).map fun c => c.id).Nodup) ∧
    (List.Perm [⟨str "c2", str "Favorites"⟩, ⟨str "c1", str "Channels"⟩]
      [⟨str "c1", str "Channels"⟩, (⟨str "c2", str "Favorites"⟩ :
        SidebarCategoryWithChannels)]) ∧
    (sidebarCategories true true (.ok ⟨[⟨str "c1", str "Channels"⟩,
        ⟨str "c2", str "Favorites"⟩], [str "c2", str "missing", str "c1"]⟩) =
      .ok ([str "c2", str "missing", str "c1"].map fun cid =>
        ([⟨str "c1", str "Channels"⟩, ⟨str "c2", str "Favorites"⟩] :
          List SidebarCategoryWithChannels).find? fun c => c.id = cid) ∧
     ([str "c2", str "missing", str "c1"].map fun cid =>
        ([⟨str "c1", str "Channels"⟩, ⟨str "c2", str "Favorites"⟩] :
          List SidebarCategoryWithChannels).find? fun c => c.id = cid).length =
       [str "c2", str "missing", str "c1"].length ∧
     sidebarCategories true true (.ok ⟨[⟨str "c2", str "Favorites"⟩,
        ⟨str "c1", str "Channels"⟩], [str "c2", str "missing", str "c1"]⟩) =
       sidebarCategories true true (.ok ⟨[⟨str "c1", str "Channels"⟩,
        ⟨str "c2", str "Favorites"⟩], [str "c2", str "missing", str "c1"]⟩)) :=
  ⟨by decide, by decide,
    claim7_sidebarCategories_order
      ⟨[⟨str "c1", str "Channels"⟩, ⟨str "c2", str "Favorites"⟩],
        [str "c2", str "missing", str "c1"]⟩
      [⟨str "c2", str "Favorites"⟩, ⟨str "c1", str "Channels"⟩]
      (by decide) (by decide)⟩

/-- C9: `isEmailAddressAllowed` does not lowercase its address argument: the
address `"user@A.com"` is rejected by the rule `"a.com"` although its
lowercased form is accepted, so the spec contract holds only because the
handler lowercases addresses before calling the matcher. -/
theorem claim9_matcher_is_case_sensitive :
    isEmailAddressAllowed (str "user@A.com") [str "a.com"] = false ∧
    isEmailAddressAllowed (lowerStr (str "user@A.com")) [str "a.com"] = true := by
  decide

/-! Lemmas about `fieldsBy`, leading to the normalization invariant (C4). -/

/-- A leading separator is skipped. -/
theorem fieldsBy_cons_sep (p : Char → Bool) (c : Char) (cs : Str) (h : p c = true) :
    fieldsBy p (c :: cs) = fieldsBy p cs := by
  simp [fieldsBy, h]

/-- A leading run of separators is skipped. -/
theorem fieldsBy_append_sep (p : Char → Bool) (s t : Str)
    (hs : ∀ c ∈ s, p c = true) :
    fieldsBy p (s ++ t) = fieldsBy p t := by
  induction s with
  | nil => rfl
  | cons c s' ih =>
    rw [List.cons_append, fieldsBy_cons_sep p c _ (hs c (by simp))]
    exact ih fun x hx => hs x (by simp [hx])

/-- A string of separators has no fields. -/
theorem fieldsBy_all_sep (p : Char → Bool) (s : Str) (hs : ∀ c ∈ s, p c = true) :
    fieldsBy p s = [] := by
  simpa using fieldsBy_append_sep p s [] hs

/-- Evaluation of `fieldsBy` on a single non-separator character. -/
theorem fieldsBy_singleton (p : Char → Bool) (c : Char) (h : p c = false) :
    fieldsBy p [c] = [[c]] := by
  simp [fieldsBy, h]

/-- Evaluation of `fieldsBy` on a non-separator followed by a separator. -/
theorem fieldsBy_cons_cons_sep (p : Char → Bool) (c d : Char) (rest : Str)
    (hc : p c = false) (hd : p d = true) :
    fieldsBy p (c :: d :: rest) = [c] :: fieldsBy p (d :: rest) := by
  simp [fieldsBy, hc, hd]

/-- Evaluation of `fieldsBy` on two consecutive non-separators. -/
theorem fieldsBy_cons_cons_notsep (p : Char → Bool) (c d : Char) (rest : Str)
    (hc : p c = false) (hd : p d = false) :
    fieldsBy p (c :: d :: rest) =
      (fieldsBy p (d :: rest)).modifyHead (fun t => c :: t) := by
  simp [fieldsBy, hc, hd]

/-- A leading non-empty separator-free token followed by nothing or by a
separator becomes the first field. -/
theorem fieldsBy_token_append (p : Char → Bool) (d t : Str) (hne : d ≠ [])
    (hd : ∀ c ∈ d, p c = false)
    (ht : t = [] ∨ ∃ c' t', t = c' :: t' ∧ p c' = true) :
    fieldsBy p (d ++ t) = d :: fieldsBy p t := by
  induction d with
  | nil => exact absurd rfl hne
  | cons c d' ih =>
    have hc : p c = false := hd c (by simp)
    cases d' with
    | nil =>
      rcases ht with rfl | ⟨c', t', rfl, hc'⟩
      · simp [fieldsBy, hc]
      · simp [fieldsBy, hc, hc']
    | cons c2 d2 =>
      have hc2 : p c2 = false := hd c2 (by simp)
      have ihh := ih (by simp) fun x hx => hd x (by simp at hx ⊢; tauto)
      rw [show (c :: c2 :: d2) ++ t = c :: (c2 :: (d2 ++ t)) from rfl,
        fieldsBy_cons_cons_notsep p c c2 (d2 ++ t) hc hc2,
        show c2 :: (d2 ++ t) = (c2 :: d2) ++ t from rfl, ihh]
      rfl

/-- A trailing run of separators does not affect the fields. -/
theorem fieldsBy_append_trailing_sep (p : Char → Bool) (u r : Str)
    (hr : ∀ c ∈ r, p c = true) :
    fieldsBy p (u ++ r) = fieldsBy p u := by
  induction u with
  | nil => simpa using fieldsBy_all_sep p r hr
  | cons c u' ih =>
    by_cases hc : p c = true
    · rw [List.cons_append, fieldsBy_cons_sep p c _ hc, fieldsBy_cons_sep p c u' hc]
      exact ih
    · have hc' : p c = false := by simpa using hc
      cases u' with
      | nil =>
        cases r with
        | nil => simp
        | cons d r' =>
          have hdr : p d = true := hr d (by simp)
          have hrest : fieldsBy p (d :: r') = [] := fieldsBy_all_sep p (d :: r') hr
          rw [show [c] ++ (d :: r') = c :: d :: r' from rfl,
            fieldsBy_cons_cons_sep p c d r' hc' hdr, hrest, fieldsBy_singleton p c hc']
      | cons c2 u2 =>
        rw [show (c :: c2 :: u2) ++ r = c :: (c2 :: (u2 ++ r)) from rfl]
        by_cases hc2 : p c2 = true
        · rw [fieldsBy_cons_cons_sep p c c2 (u2 ++ r) hc' hc2,
            fieldsBy_cons_cons_sep p c c2 u2 hc' hc2,
            show c2 :: (u2 ++ r) = (c2 :: u2) ++ r from rfl, ih]
        · have hc2' : p c2 = false := by simpa using hc2
          rw [fieldsBy_cons_cons_notsep p c c2 (u2 ++ r) hc' hc2',
            fieldsBy_cons_cons_notsep p c c2 u2 hc' hc2',
            show c2 :: (u2 ++ r) = (c2 :: u2) ++ r from rfl, ih]

/-- Dropping leading separators does not affect the fields. -/
theorem fieldsBy_dropWhile (p : Char → Bool) (s : Str) :
    fieldsBy p (s.dropWhile p) = fieldsBy p s := by
  induction s with
  | nil => rfl
  | cons c cs ih =>
    by_cases hc : p c = true
    · rw [List.dropWhile_cons_of_pos hc, fieldsBy_cons_sep p c cs hc]
      exact ih
    · rw [List.dropWhile_cons_of_neg hc]

/-- `strings.TrimSpace` does not affect `strings.Fields`. -/
theorem fieldsBy_trimSpace (s : Str) :
    fieldsBy goIsSpace (trimSpace s) = fieldsBy goIsSpace s := by
  unfold trimSpace
  rw [← fieldsBy_dropWhile goIsSpace s]
  set u := s.dropWhile goIsSpace with hu
  have hsplit : u = (u.reverse.dropWhile goIsSpace).reverse ++
      (u.reverse.takeWhile goIsSpace).reverse := by
    conv_lhs => rw [← u.reverse_reverse,
      ← List.takeWhile_append_dropWhile (p := goIsSpace) (l := u.reverse)]
    rw [List.reverse_append]
  have htrail : ∀ c ∈ (u.reverse.takeWhile goIsSpace).reverse, goIsSpace c = true := by
    intro c hcmem
    exact List.mem_takeWhile_imp (List.mem_reverse.mp hcmem)
  calc fieldsBy goIsSpace ((u.reverse.dropWhile goIsSpace).reverse)
      = fieldsBy goIsSpace ((u.reverse.dropWhile goIsSpace).reverse ++
          (u.reverse.takeWhile goIsSpace).reverse) :=
        (fieldsBy_append_trailing_sep goIsSpace _ _ htrail).symm
    _ = fieldsBy goIsSpace u := by rw [← hsplit]

/-- Fields of a mapped string are the mapped fields for the pulled-back
separator predicate. -/
theorem fieldsBy_map (p : Char → Bool) (f : Char → Char) (s : Str) :
    fieldsBy p (s.map f) = (fieldsBy (fun c => p (f c)) s).map (List.map f) := by
  induction s with
  | nil => rfl
  | cons c cs ih =>
    by_cases hc : p (f c) = true
    · rw [List.map_cons, fieldsBy_cons_sep p (f c) _ hc,
        fieldsBy_cons_sep (fun c => p (f c)) c cs hc, ih]
    · have hc' : p (f c) = false := by simpa using hc
      cases cs with
      | nil => simp [fieldsBy, hc']
      | cons d ds =>
        rw [show List.map f (c :: d :: ds) = f c :: (f d :: List.map f ds) from rfl]
        by_cases hd : p (f d) = true
        · rw [fieldsBy_cons_cons_sep p (f c) (f d) (List.map f ds) hc' hd,
            show (f d :: List.map f ds) = List.map f (d :: ds) from rfl, ih,
            fieldsBy_cons_cons_sep (fun c => p (f c)) c d ds hc' hd]
          simp
        · have hd' : p (f d) = false := by simpa using hd
          rw [fieldsBy_cons_cons_notsep p (f c) (f d) (List.map f ds) hc' hd',
            show (f d :: List.map f ds) = List.map f (d :: ds) from rfl, ih,
            fieldsBy_cons_cons_notsep (fun c => p (f c)) c d ds hc' hd']
          cases h : fieldsBy (fun c => p (f c)) (d :: ds) <;> simp [List.modifyHead]

/-- A character fixed by a map leaves the string unchanged wherever all its
characters are fixed. -/
theorem map_id_of_fixed (f : Char → Char) (s : Str) (h : ∀ c ∈ s, f c = c) :
    s.map f = s := by
  induction s with
  | nil => rfl
  | cons c cs ih => rw [List.map_cons, h c (by simp), ih fun x hx => h x (by simp [hx])]

/-- The two `strings.Replace` calls act pointwise as `collapseSep`. -/
theorem replace_replace (s : Str) :
    replaceChar ',' ' ' (replaceChar '@' ' ' s) = s.map collapseSep := by
  unfold replaceChar
  rw [List.map_map]
  apply List.map_congr_left
  intro c _
  simp only [Function.comp_apply]
  by_cases h1 : c = '@'
  · subst h1; decide
  · by_cases h2 : c = ','
    · subst h2; decide
    · simp [collapseSep, h1, h2]

/-- `normalizeDomains` is `fieldsBy` for the induced separator predicate on
the original string, with the preprocessing map applied to each field. -/
theorem normalizeDomains_eq (s : Str) :
    normalizeDomains s =
      (fieldsBy normSep s).map (List.map fun c => goToLower (collapseSep c)) := by
  unfold normalizeDomains lowerStr
  rw [replace_replace, List.map_map, fieldsBy_trimSpace, fieldsBy_map]
  rfl

/-- Separator characters are mapped to whitespace by the preprocessing. -/
theorem normSep_of_sep (c : Char) (h : isSepChar c = true) : normSep c = true := by
  simp only [isSepChar, Bool.or_eq_true, decide_eq_true_eq] at h
  rcases h with (hsp | h) | h
  · simp only [goIsSpace, Bool.or_eq_true, decide_eq_true_eq] at hsp
    rcases hsp with ((((((h | h) | h) | h) | h) | h) | h) | h <;> subst h <;> decide
  · subst h; decide
  · subst h; decide

/-- Non-separator characters fixed by lowercasing are fixed by the whole
preprocessing and are not separators afterwards either. -/
theorem normSep_of_token (c : Char) (hsep : isSepChar c = false)
    (hlow : goToLower c = c) :
    normSep c = false ∧ goToLower (collapseSep c) = c := by
  have h := hsep
  simp only [isSepChar, Bool.or_eq_false_iff, decide_eq_false_iff_not] at h
  obtain ⟨⟨hsp, hcomma⟩, hat⟩ := h
  have hcol : collapseSep c = c := by
    unfold collapseSep
    rw [if_neg hat, if_neg hcomma]
  constructor
  · unfold normSep
    rw [hcol, hlow]
    exact hsp
  · rw [hcol, hlow]

/-- Dropping the head pair preserves the inner-separator condition. -/
theorem innerSepsNonempty_tail (pr : Str × Str) (rest : List (Str × Str))
    (h : innerSepsNonempty (pr :: rest) = true) : innerSepsNonempty rest = true := by
  cases rest with
  | nil => rfl
  | cons r rest' =>
    simp only [innerSepsNonempty, Bool.and_eq_true] at h
    exact h.2

/-- With a successor pair present, the head pair's separator run is
non-empty. -/
theorem innerSepsNonempty_head (pr r : Str × Str) (rest : List (Str × Str))
    (h : innerSepsNonempty (pr :: r :: rest) = true) : pr.2 ≠ [] := by
  simp only [innerSepsNonempty, Bool.and_eq_true, Bool.not_eq_true',
    List.isEmpty_eq_false] at h
  simpa using h.1

/-- Fields of a separator variant are exactly its domain tokens. -/
theorem fieldsBy_variant (q : Char → Bool) (lead : Str) (ps : List (Str × Str))
    (hlead : ∀ c ∈ lead, q c = true)
    (htok : ∀ pr ∈ ps, pr.1 ≠ [] ∧ ∀ c ∈ pr.1, q c = false)
    (hsep : ∀ pr ∈ ps, ∀ c ∈ pr.2, q c = true)
    (hinner : innerSepsNonempty ps = true) :
    fieldsBy q (variantStr lead ps) = ps.map Prod.fst := by
  induction ps generalizing lead with
  | nil =>
    unfold variantStr
    simp only [List.map_nil, List.flatten_nil, List.append_nil]
    exact fieldsBy_all_sep q lead hlead
  | cons p0 rest ih =>
    unfold variantStr
    rw [List.map_cons, List.flatten_cons, fieldsBy_append_sep q lead _ hlead,
      List.append_assoc]
    have htcond : p0.2 ++ (rest.map fun pr => pr.1 ++ pr.2).flatten = [] ∨
        ∃ c' t', p0.2 ++ (rest.map fun pr => pr.1 ++ pr.2).flatten = c' :: t' ∧
          q c' = true := by
      cases hp2 : p0.2 with
      | nil =>
        cases rest with
        | nil => simp
        | cons r rest' =>
          exact absurd hp2 (innerSepsNonempty_head p0 r rest' hinner)
      | cons a s' =>
        refine Or.inr ⟨a, s' ++ (rest.map fun pr => pr.1 ++ pr.2).flatten, by simp, ?_⟩
        exact hsep p0 (by simp) a (by simp [hp2])
    rw [fieldsBy_token_append q p0.1 _ (htok p0 (by simp)).1 (htok p0 (by simp)).2 htcond,
      fieldsBy_append_sep q p0.2 _ (hsep p0 (by simp))]
    have hrest := ih [] (by simp)
      (fun pr hpr => htok pr (List.mem_cons_of_mem p0 hpr))
      (fun pr hpr => hsep pr (List.mem_cons_of_mem p0 hpr))
      (innerSepsNonempty_tail p0 rest hinner)
    unfold variantStr at hrest
    rw [List.nil_append] at hrest
    rw [hrest, List.map_cons]

/-- Fields of the canonical space-separated form are exactly its tokens. -/
theorem fieldsBy_canonical (q : Char → Bool) (ds : List Str)
    (hds : ∀ d ∈ ds, d ≠ [] ∧ ∀ c ∈ d, q c = false)
    (hsp : q ' ' = true) :
    fieldsBy q (canonicalForm ds) = ds := by
  induction ds with
  | nil => rfl
  | cons d rest ih =>
    cases rest with
    | nil =>
      have h := fieldsBy_token_append q d [] (hds d (by simp)).1 (hds d (by simp)).2
        (Or.inl rfl)
      simpa [canonicalForm] using h
    | cons d2 rest2 =>
      rw [show canonicalForm (d :: d2 :: rest2) =
          d ++ (' ' :: canonicalForm (d2 :: rest2)) from rfl,
        fieldsBy_token_append q d _ (hds d (by simp)).1 (hds d (by simp)).2
          (Or.inr ⟨' ', canonicalForm (d2 :: rest2), rfl, hsp⟩),
        fieldsBy_cons_sep q ' ' _ hsp, ih fun x hx => hds x (by simp [hx])]

/-- C4: `normalizeDomains` applied to any separator variant — domains
interleaved with arbitrary non-empty runs of commas, whitespace and at-signs,
with optional leading and trailing runs — yields the same suffix list as the
canonical space-separated lowercase form of the same domains, namely the
domain list itself. -/
theorem claim4_normalizeDomains_separator_invariant (lead : Str)
    (ps : List (Str × Str)) (hshape : variantShapeOK lead ps = true) :
    normalizeDomains (variantStr lead ps) =
      normalizeDomains (canonicalForm (ps.map Prod.fst)) ∧
    normalizeDomains (variantStr lead ps) = ps.map Prod.fst := by
  have hshape' : (isSepRun lead = true ∧
      (ps.all fun q => isBareLowerDomain q.1 && isSepRun q.2) = true) ∧
      innerSepsNonempty ps = true := by
    simpa [variantShapeOK, Bool.and_eq_true] using hshape
  obtain ⟨⟨hlead, hall⟩, hinner⟩ := hshape'
  rw [List.all_eq_true] at hall
  have htokinfo : ∀ pr ∈ ps, pr.1 ≠ [] ∧
      ∀ c ∈ pr.1, isSepChar c = false ∧ goToLower c = c := by
    intro pr hpr
    have h := hall pr hpr
    simp only [Bool.and_eq_true, isBareLowerDomain, Bool.not_eq_true',
      List.isEmpty_eq_false, List.all_eq_true, decide_eq_true_eq] at h
    refine ⟨h.1.1, fun c hc => ?_⟩
    have := h.1.2 c hc
    simp only [Bool.and_eq_true, Bool.not_eq_true', decide_eq_true_eq] at this
    exact this
  have hsepinfo : ∀ pr ∈ ps, ∀ c ∈ pr.2, isSepChar c = true := by
    intro pr hpr c hc
    have h := hall pr hpr
    simp only [Bool.and_eq_true, isSepRun, List.all_eq_true] at h
    exact h.2 c hc
  have hleadinfo : ∀ c ∈ lead, isSepChar c = true := by
    simpa [isSepRun, List.all_eq_true] using hlead
  have hvar := fieldsBy_variant normSep lead ps
    (fun c hc => normSep_of_sep c (hleadinfo c hc))
    (fun pr hpr => ⟨(htokinfo pr hpr).1, fun c hc =>
      (normSep_of_token c ((htokinfo pr hpr).2 c hc).1 ((htokinfo pr hpr).2 c hc).2).1⟩)
    (fun pr hpr c hc => normSep_of_sep c (hsepinfo pr hpr c hc))
    hinner
  have hfix : ∀ d ∈ ps.map Prod.fst, List.map (fun c => goToLower (collapseSep c)) d = d := by
    intro d hd
    obtain ⟨pr, hpr, rfl⟩ := List.mem_map.mp hd
    exact map_id_of_fixed _ pr.1 fun c hc =>
      (normSep_of_token c ((htokinfo pr hpr).2 c hc).1 ((htokinfo pr hpr).2 c hc).2).2
  have hmain : normalizeDomains (variantStr lead ps) = ps.map Prod.fst := by
    rw [normalizeDomains_eq, hvar]
    calc (ps.map Prod.fst).map (List.map fun c => goToLower (collapseSep c))
        = (ps.map Prod.fst).map id := List.map_congr_left fun d hd => hfix d hd
      _ = ps.map Prod.fst := List.map_id _
  have hdcond : ∀ d ∈ ps.map Prod.fst, d ≠ [] ∧ ∀ c ∈ d, normSep c = false := by
    intro d hd
    obtain ⟨pr, hpr, rfl⟩ := List.mem_map.mp hd
    exact ⟨(htokinfo pr hpr).1, fun c hc =>
      (normSep_of_token c ((htokinfo pr hpr).2 c hc).1 ((htokinfo pr hpr).2 c hc).2).1⟩
  have hcan : normalizeDomains (canonicalForm (ps.map Prod.fst)) = ps.map Prod.fst := by
    rw [normalizeDomains_eq,
      fieldsBy_canonical normSep (ps.map Prod.fst) hdcond (by decide)]
    calc (ps.map Prod.fst).map (List.map fun c => goToLower (collapseSep c))
        = (ps.map Prod.fst).map id := List.map_congr_left fun d hd => hfix d hd
      _ = ps.map Prod.fst := List.map_id _
  exact ⟨hmain.trans hcan.symm, hmain⟩

/-- Witness for C4 on the spec's example: the variant
`"@corp.x.com, y.com z.org"` and the canonical `"corp.x.com y.com z.org"`
normalize to the same suffix list. -/
theorem claim4_normalizeDomains_separator_invariant_witness :
    (variantShapeOK (str "@")
      [(str "corp.x.com", str ", "), (str "y.com", str " "),
        (str "z.org", str "")] = true) ∧
    (normalizeDomains (variantStr (str "@")
        [(str "corp.x.com", str ", "), (str "y.com", str " "),
          (str "z.org", str "")]) =
      normalizeDomains (canonicalForm
        ([(str "corp.x.com", str ", "), (str "y.com", str " "),
          (str "z.org", str "")].map Prod.fst)) ∧
     normalizeDomains (variantStr (str "@")
        [(str "corp.x.com", str ", "), (str "y.com", str " "),
          (str "z.org", str "")]) =
      [(str "corp.x.com", str ", "), (str "y.com", str " "),
        (str "z.org", str "")].map Prod.fst) :=
  ⟨by decide,
    claim4_normalizeDomains_separator_invariant (str "@")
      [(str "corp.x.com", str ", "), (str "y.com", str " "), (str "z.org", str "")]
      (by decide)⟩

/-- C10: `NewPreviewPost` returns nil for a nil post without touching the
channel; for a non-nil post it builds the preview from both pointers, and a
nil channel is an unguarded dereference (modelled as the `none` behaviour). -/
theorem claim10_newPreviewPost_nil_handling :
    (∀ channel : Option Channel, NewPreviewPost none channel = some none) ∧
    (∀ p : Post, NewPreviewPost (some p) none = none) ∧
    (∀ (p : Post) (ch : Channel),
      NewPreviewPost (some p) (some ch) =
        some (some ⟨p.id, p, ch.displayName, ch.type⟩)) :=
  ⟨fun _ => rfl, fun _ => rfl, fun _ _ => rfl⟩

end Mattermost
